import Mathlib

/-!
# Book store of go-server-monitoring-example

A shallow embedding of `src/books.go`, `src/db.go` and the handler of `/books`
in `src/main.go`, and theorems about it.

Modelling choices, all read off the source:

* `time.Time` values are integers (a clock reading); `time.Now()` is an
  explicit argument `now` of the operations that call it.
* Go's `int` is modelled by `Int`: the spec assumes an unbounded id space
  (reaching the 64-bit limit takes 2^63 `AddBook` calls).
* `map[int]int` is a partial function `Int → Option Nat`; a key is present
  when the function is `some`.
* `[]*Book` is a `List Book`. Every slot is filled by `AddBook` with a freshly
  allocated record, so two slots never alias and value semantics are enough.
* A run-time panic (index out of range) is an explicit outcome. It is raised
  before any write of the operation, so the store is left as it was. `step`
  goes on from that store, as a caller that recovers does (`net/http` recovers
  the panic of a handler); a program that does not recover stops there, and
  its runs are the prefixes of the runs here.
* The operations are modelled sequentially and the mutex is not part of the
  store state: in a single-threaded run without a panic every lock taken is
  released before the next one is taken. The lock calls and the writes of each
  operation are listed, in program order, as separate event sequences.
* `UpdateBook` panics with the read lock still held, and that lock is never
  released: from then on the `Lock()` of `newBookID` does not return, so no
  later `AddBook` returns. `step` and `run` leave the locks out and go on as
  if every call returned; `returnedIDs` stops at such a panic and lists the
  ids the code returns.
* `strconv.Atoi` and the JSON decoder are library code; the handler takes them
  as arguments.
-/

namespace BookStore

/-- The record of `src/books.go`. -/
structure Book where
  ID : Int
  Name : String
  Author : String
  CreatedAt : Int
  UpdatedAt : Int
  deriving DecidableEq, Repr

/-- `NewBook` of `src/books.go`. -/
def NewBook (id : Int) (name author : String) (createdAt : Int) : Book :=
  { ID := id, Name := name, Author := author, CreatedAt := createdAt, UpdatedAt := createdAt }

/-- The store of `src/db.go` (the mutex carries no data). -/
structure DB where
  books : List Book
  lastBookID : Int
  index : Int → Option Nat

/-- How a call of a store operation ends: normally, with `ErrBookNotFound`, or
with a run-time panic for an index out of range. -/
inductive Outcome (α : Type) where
  | ok : α → Outcome α
  | ErrBookNotFound : Outcome α
  | indexOutOfRange : Outcome α
  deriving DecidableEq, Repr

/-- The store built by the body of `once.Do` in `NewDB`: `&DB{index: make(map[int]int)}`. -/
def DB.fresh : DB :=
  { books := [], lastBookID := 0, index := fun _ => none }

/-- `NewDB`, with the package-level `sync.Once` as a flag: the store (or nil)
that is returned, and the flag afterwards. -/
def NewDB (onceDone : Bool) : Option DB × Bool :=
  if onceDone then (none, true) else (some DB.fresh, true)

/-- `db.index[k] = v`. -/
def mapSet (m : Int → Option Nat) (k : Int) (v : Nat) : Int → Option Nat :=
  fun j => if j = k then some v else m j

/-- `delete(db.index, k)`. -/
def mapDelete (m : Int → Option Nat) (k : Int) : Int → Option Nat :=
  fun j => if j = k then none else m j

/-- `slices.Delete(s, i, j)`: removes `s[i:j]`; it panics (`none`) unless
`i ≤ j ≤ len(s)`. -/
def slicesDelete {α : Type} (s : List α) (i j : Nat) : Option (List α) :=
  if i ≤ j ∧ j ≤ s.length then some (s.take i ++ s.drop j) else none

/-- `newBookID`: the id that is returned and the store afterwards. -/
def DB.newBookID (db : DB) : Int × DB :=
  let id := db.lastBookID + 1
  (id, { db with lastBookID := id })

/-- `AddBook`: the record that is returned and the store afterwards. -/
def DB.AddBook (db : DB) (name author : String) (now : Int) : Book × DB :=
  let (id, db1) := db.newBookID
  let book := NewBook id name author now
  (book, { db1 with index := mapSet db1.index book.ID db1.books.length,
                    books := db1.books ++ [book] })

/-- `GetBooks`. -/
def DB.GetBooks (db : DB) : List Book :=
  db.books

/-- `GetBook`. -/
def DB.GetBook (db : DB) (id : Int) : Outcome Book :=
  match db.index id with
  | none => .ErrBookNotFound
  | some index =>
    match db.books[index]? with
    | some book => .ok book
    | none => .indexOutOfRange

/-- `RemoveBook`: how the call ends and the store afterwards. -/
def DB.RemoveBook (db : DB) (id : Int) : Outcome Unit × DB :=
  match db.index id with
  | none => (.ErrBookNotFound, db)
  | some index =>
    match slicesDelete db.books index (index + 1) with
    | none => (.indexOutOfRange, db)
    | some books => (.ok (), { db with books := books, index := mapDelete db.index id })

/-- `UpdateBook`: how the call ends (with the record that is returned) and the
store afterwards. -/
def DB.UpdateBook (db : DB) (id : Int) (name author : String) (now : Int) :
    Outcome Book × DB :=
  match db.index id with
  | none => (.ErrBookNotFound, db)
  | some index =>
    match db.books[index]? with
    | none => (.indexOutOfRange, db)
    | some book =>
      let book := { book with Name := name, Author := author, UpdatedAt := now }
      (.ok book, { db with books := db.books.set index book })

/-- A call of a store operation, with the clock reading it sees. -/
inductive Op where
  | addBook (name author : String) (now : Int)
  | getBooks
  | getBook (id : Int)
  | updateBook (id : Int) (name author : String) (now : Int)
  | removeBook (id : Int)
  deriving DecidableEq, Repr

/-- The store after one call. -/
def step (db : DB) : Op → DB
  | .addBook name author now => (db.AddBook name author now).2
  | .getBooks => db
  | .getBook _ => db
  | .updateBook id name author now => (db.UpdateBook id name author now).2
  | .removeBook id => (db.RemoveBook id).2

/-- The store after a sequence of calls. -/
def run (db : DB) (ops : List Op) : DB :=
  ops.foldl step db

/-- The ids that `newBookID` hands out along `run`, one per `AddBook` call of
the sequence, in call order. `run` leaves the locks out, so this list goes on
after an `UpdateBook` that panics with the read lock held; the ids that the
code returns are `returnedIDs`, a prefix of this list. -/
def addedIDs : DB → List Op → List Int
  | _, [] => []
  | db, .addBook name author now :: ops =>
    (db.AddBook name author now).1.ID :: addedIDs (db.AddBook name author now).2 ops
  | db, op :: ops => addedIDs (step db op) ops

/-- Index and sequence agree: every key of the index maps to the position of
the record with that ID, and every record has its ID in the index, mapped to
its own position. -/
def Consistent (db : DB) : Prop :=
  (∀ id p, db.index id = some p → ∃ b, db.books[p]? = some b ∧ b.ID = id) ∧
  (∀ p b, db.books[p]? = some b → db.index b.ID = some p)

/-- Whether a call is an `AddBook`. -/
def Op.isAdd : Op → Bool
  | .addBook _ _ _ => true
  | _ => false

/-- The ids on which a `RemoveBook` call of a sequence returned nil, in call
order. -/
def removedIDs : DB → List Op → List Int
  | _, [] => []
  | db, .removeBook id :: ops =>
    if (db.RemoveBook id).1 = .ok () then id :: removedIDs (db.RemoveBook id).2 ops
    else removedIDs (db.RemoveBook id).2 ops
  | db, op :: ops => removedIDs (step db op) ops

/-- Every key of the index is an id that `newBookID` has handed out. -/
def IndexBounded (db : DB) : Prop :=
  0 ≤ db.lastBookID ∧ ∀ id p, db.index id = some p → 1 ≤ id ∧ id ≤ db.lastBookID

/-- Two books added to a fresh store. -/
def twoBooks : DB :=
  run DB.fresh [.addBook "a" "x" 10, .addBook "b" "y" 20]

/-- Two books added to a fresh store, then the first one removed. -/
def twoBooksFirstRemoved : DB :=
  run DB.fresh [.addBook "a" "x" 10, .addBook "b" "y" 20, .removeBook 1]

/-- Three books added to a fresh store, then the first one removed. -/
def threeBooksFirstRemoved : DB :=
  run DB.fresh [.addBook "a" "x" 10, .addBook "b" "y" 20, .addBook "c" "z" 30, .removeBook 1]

/-- The store that `init` of `src/main.go` builds on the store of the first
`NewDB` call, with the clock readings of its two `AddBook` calls. -/
def initStore (t1 t2 : Int) : DB :=
  ((DB.fresh.AddBook "Go Programming" "John Doe" t1).2.AddBook
    "Concurrency in Go" "Jane Smith" t2).2

/-- A run with two additions, a removal and one more addition. -/
def addRemoveAdd : List Op :=
  [.addBook "a" "x" 10, .addBook "b" "y" 20, .removeBook 1, .addBook "c" "z" 30]

/-- The clock readings of the `AddBook` and `UpdateBook` calls of a sequence,
in call order. -/
def opTimes : List Op → List Int
  | [] => []
  | .addBook _ _ now :: ops => now :: opTimes ops
  | .updateBook _ _ _ now :: ops => now :: opTimes ops
  | _ :: ops => opTimes ops

/-- Whether a call is a `RemoveBook`. -/
def Op.isRemove : Op → Bool
  | .removeBook _ => true
  | _ => false

/-- The call `AddBook(name, author)` at clock reading `now`, for a triple
`(name, author, now)`. -/
def toAdd (x : String × String × Int) : Op :=
  .addBook x.1 x.2.1 x.2.2

/-- The store of a history without removals, as C15 describes it: the counter
is the length of the sequence, the keys of the index are the ids 1 to that
length, id `k` maps to position `k - 1`, and the record there has ID `k`. -/
def Dense (db : DB) : Prop :=
  db.lastBookID = db.books.length ∧
  (∀ id : Int, db.index id =
    if 1 ≤ id ∧ id ≤ db.books.length then some (id - 1).toNat else none) ∧
  (∀ (p : Nat) (b : Book), db.books[p]? = some b → b.ID = (p : Int) + 1)

/-- The result of call number `n + 1` of `NewDB` in a process, and the flag of
the `sync.Once` after it; the flag is unset before the first call. -/
def nthNewDB : Nat → Option DB × Bool
  | 0 => NewDB false
  | n + 1 => NewDB (nthNewDB n).2

/-- A history of additions and an update, at rising clock readings. -/
def addAddUpdate : List Op :=
  [.addBook "a" "x" 10, .addBook "b" "y" 20, .updateBook 1 "n" "w" 30, .getBook 2]

/-! ### Lock and write events of the store operations -/

/-- What a store operation writes to. -/
inductive Target where
  | books
  | index
  | lastBookID
  | bookName
  | bookAuthor
  | bookUpdatedAt
  deriving DecidableEq, Repr

/-- The calls on `db.mutex` and the writes of a store operation. -/
inductive Event where
  | Lock
  | Unlock
  | RLock
  | RUnlock
  | write (t : Target)
  deriving DecidableEq, Repr

/-- The events of `newBookID`, in the order they happen; the deferred `Unlock`
runs when the function returns. -/
def newBookIDEvents : List Event :=
  [.Lock, .write .lastBookID, .Unlock]

/-- The events of `AddBook`, in the order they happen. -/
def AddBookEvents : List Event :=
  newBookIDEvents ++ [.Lock, .write .index, .write .books, .Unlock]

/-- The events of `GetBook`, in the order they happen. -/
def GetBookEvents : List Event :=
  [.RLock, .RUnlock]

/-- The events of `RemoveBook(id)` on a store, in the order they happen. -/
def DB.RemoveBookEvents (db : DB) (id : Int) : List Event :=
  match db.index id with
  | none => [.RLock, .RUnlock]
  | some index =>
    match slicesDelete db.books index (index + 1) with
    | none => [.RLock, .RUnlock, .Lock, .Unlock]
    | some _ => [.RLock, .RUnlock, .Lock, .Unlock, .write .books, .write .index]

/-- The events of `UpdateBook(id, ..)` on a store, in the order they happen. -/
def DB.UpdateBookEvents (db : DB) (id : Int) : List Event :=
  match db.index id with
  | none => [.RLock, .RUnlock]
  | some index =>
    match db.books[index]? with
    | none => [.RLock]
    | some _ =>
      [.RLock, .RUnlock, .write .bookName, .write .bookAuthor, .write .bookUpdatedAt,
       .Lock, .Unlock, .write .books]

/-- Whether every write of an event sequence happens between a `Lock` and the
matching `Unlock`; `held` tells whether the exclusive lock is held at the
start. -/
def writesUnderLock : Bool → List Event → Bool
  | _, [] => true
  | _, .Lock :: es => writesUnderLock true es
  | _, .Unlock :: es => writesUnderLock false es
  | held, .write _ :: es => held && writesUnderLock held es
  | held, _ :: es => writesUnderLock held es

/-- The events of one call on a store, in the order they happen; `GetBooks`
takes no lock. -/
def opEvents (db : DB) : Op → List Event
  | .addBook _ _ _ => AddBookEvents
  | .getBooks => []
  | .getBook _ => GetBookEvents
  | .updateBook id _ _ _ => db.UpdateBookEvents id
  | .removeBook id => db.RemoveBookEvents id

/-- Whether an event sequence takes a lock more often than it releases it, so
that the lock is still held at its end. -/
def leavesLockHeld (es : List Event) : Bool :=
  decide (es.count .RUnlock < es.count .RLock) || decide (es.count .Unlock < es.count .Lock)

/-- The ids returned by the `AddBook` calls of a sequence, in call order, with
the mutex taken into account. A call that ends with a lock still held leaves
it held for good, as the goroutine that took it is gone; the `Lock()` of
`newBookID` then waits forever, so no later `AddBook` call returns. -/
def returnedIDs : DB → List Op → List Int
  | _, [] => []
  | db, .addBook name author now :: ops =>
    (db.AddBook name author now).1.ID :: returnedIDs (db.AddBook name author now).2 ops
  | db, op :: ops =>
    if leavesLockHeld (opEvents db op) then [] else returnedIDs (step db op) ops

/-- Whether every call of a sequence ends with no lock held. -/
def noLockLeft : DB → List Op → Bool
  | _, [] => true
  | db, op :: ops => !leavesLockHeld (opEvents db op) && noLockLeft (step db op) ops

/-- Two additions, the removal of the first book, an update of the second and a
third addition. -/
def staleUpdateThenAdd : List Op :=
  [.addBook "a" "x" 10, .addBook "b" "y" 20, .removeBook 1, .updateBook 2 "n" "w" 40,
   .addBook "c" "z" 50]

/-! ### The handler of `/books` in `src/main.go` -/

/-- `strings.TrimPrefix(s, pre)`. -/
def TrimPrefix (s pre : String) : String :=
  if pre.toList.isPrefixOf s.toList then String.mk (s.toList.drop pre.length) else s

/-- `strings.Trim(s, cutset)` for a cutset of the one character `c`. -/
def Trim (s : String) (c : Char) : String :=
  String.mk
    (((s.toList.dropWhile (fun x => x == c)).reverse.dropWhile (fun x => x == c)).reverse)

/-- The variable `path` of `handleBooks`: the URL path without the leading
`/books` and without slashes at either end. -/
def pathRemainder (urlPath : String) : String :=
  Trim (TrimPrefix urlPath "/books") '/'

/-- What `handleBooks` reads of a request. -/
structure Request where
  Method : String
  Path : String
  Body : String

/-- What a handler writes as the body of the response. -/
inductive Payload where
  | text (msg : String)
  | books (bs : List Book)
  | book (b : Book)
  | empty

/-- What a call of `handleBooks` does: the status it writes (none when a store
operation panics before any status is written), the body, the store operations
it invokes and the store afterwards. -/
structure Handled where
  status : Option Nat
  body : Payload
  calls : List Op
  database : DB

/-- `handleBooks` of `src/main.go` on the package-level store `database`.
`strconv.Atoi` and the JSON decoding of the request body into the name and
author of a `Book` are library code and are taken as the arguments `atoi` and
`decodeBook` (none for an error); `now` is the clock reading of the store
operation. The call counter of the metrics is left out. -/
def handleBooks (atoi : String → Option Int) (decodeBook : String → Option (String × String))
    (now : Int) (database : DB) (r : Request) : Handled :=
  let path := pathRemainder r.Path
  if r.Method = "GET" then
    if path = "" then
      ⟨some 200, .books database.GetBooks, [.getBooks], database⟩
    else
      match atoi path with
      | none => ⟨some 400, .text "Invalid book ID", [], database⟩
      | some id =>
        match database.GetBook id with
        | .ErrBookNotFound => ⟨some 404, .text "error book not found", [.getBook id], database⟩
        | .indexOutOfRange => ⟨none, .empty, [.getBook id], database⟩
        | .ok book => ⟨some 200, .book book, [.getBook id], database⟩
  else if r.Method = "POST" then
    match decodeBook r.Body with
    | none => ⟨some 400, .text "Invalid request body", [], database⟩
    | some (name, author) =>
      ⟨some 201, .book (database.AddBook name author now).1, [.addBook name author now],
        (database.AddBook name author now).2⟩
  else if r.Method = "PUT" then
    if path = "" then
      ⟨some 400, .text "Book ID is required", [], database⟩
    else
      match atoi path with
      | none => ⟨some 400, .text "Invalid book ID", [], database⟩
      | some id =>
        match decodeBook r.Body with
        | none => ⟨some 400, .text "Invalid request body", [], database⟩
        | some (name, author) =>
          match database.UpdateBook id name author now with
          | (.ErrBookNotFound, db) =>
            ⟨some 404, .text "error book not found", [.updateBook id name author now], db⟩
          | (.indexOutOfRange, db) => ⟨none, .empty, [.updateBook id name author now], db⟩
          | (.ok book, db) => ⟨some 200, .book book, [.updateBook id name author now], db⟩
  else if r.Method = "DELETE" then
    if path = "" then
      ⟨some 400, .text "Book ID is required", [], database⟩
    else
      match atoi path with
      | none => ⟨some 400, .text "Invalid book ID", [], database⟩
      | some id =>
        match database.RemoveBook id with
        | (.ErrBookNotFound, db) => ⟨some 404, .text "error book not found", [.removeBook id], db⟩
        | (.indexOutOfRange, db) => ⟨none, .empty, [.removeBook id], db⟩
        | (.ok _, db) => ⟨some 204, .empty, [.removeBook id], db⟩
  else
    ⟨some 405, .text "Method Not Allowed", [], database⟩

/-- Reads a run of decimal digits; `acc` is the value read so far. -/
def digitsToNat : List Char → Nat → Option Nat
  | [], acc => some acc
  | c :: cs, acc => if c.isDigit then digitsToNat cs (acc * 10 + (c.toNat - 48)) else none

/-- An instance of the argument `atoi` for closed examples: decimal digits
after an optional sign. -/
def sampleAtoi (s : String) : Option Int :=
  match s.toList with
  | [] => none
  | '-' :: c :: cs => (digitsToNat (c :: cs) 0).map (fun n => - (n : Int))
  | '+' :: c :: cs => (digitsToNat (c :: cs) 0).map (fun n => (n : Int))
  | cs => (digitsToNat cs 0).map (fun n => (n : Int))

/-! ## The defect of `RemoveBook`: positions shift, the index does not -/

/-- Index and sequence agree in the store with books 1 and 2. -/
theorem twoBooks_consistent : Consistent twoBooks := by
  refine ⟨?_, ?_⟩
  · intro id p h
    by_cases h2 : id = 2
    · subst h2
      have hp : p = 1 := by
        have : twoBooks.index 2 = some 1 := rfl
        rw [this] at h
        exact (Option.some.inj h).symm
      subst hp
      exact ⟨NewBook 2 "b" "y" 20, rfl, rfl⟩
    · by_cases h1 : id = 1
      · subst h1
        have hp : p = 0 := by
          have : twoBooks.index 1 = some 0 := rfl
          rw [this] at h
          exact (Option.some.inj h).symm
        subst hp
        exact ⟨NewBook 1 "a" "x" 10, rfl, rfl⟩
      · have : twoBooks.index id = none := by
          simp [twoBooks, run, step, DB.AddBook, DB.newBookID, mapSet, DB.fresh, NewBook, h1, h2]
        rw [this] at h
        exact absurd h (by simp)
  · intro p b h
    have hb : twoBooks.books = [NewBook 1 "a" "x" 10, NewBook 2 "b" "y" 20] := rfl
    rw [hb] at h
    match p, h with
    | 0, h =>
      have : b = NewBook 1 "a" "x" 10 := (Option.some.inj h).symm
      subst this
      rfl
    | 1, h =>
      have : b = NewBook 2 "b" "y" 20 := (Option.some.inj h).symm
      subst this
      rfl
    | (n + 2), h => exact absurd h (by simp)

/-- C1 (index/sequence consistency is an invariant): fails on the code. After
`AddBook`, `AddBook` on a fresh store the index and the sequence agree; after
`RemoveBook(1)` the sequence has one record, the one with ID 2 at position 0,
while the index still maps 2 to position 1, so they no longer agree. -/
theorem removeBook_breaks_consistency :
    Consistent twoBooks ∧
    twoBooksFirstRemoved.books = [NewBook 2 "b" "y" 20] ∧
    twoBooksFirstRemoved.index 2 = some 1 ∧
    ¬ Consistent twoBooksFirstRemoved := by
  refine ⟨twoBooks_consistent, rfl, rfl, ?_⟩
  intro hc
  obtain ⟨b, hb, _⟩ := hc.1 2 1 rfl
  have : twoBooksFirstRemoved.books[1]? = none := rfl
  rw [this] at hb
  exact absurd hb (by simp)

/-- C2 (after a removal every other id still resolves to its record): fails on
the code. In the consistent store with books 1 and 2, `GetBook(2)` returns the
record with ID 2 and `RemoveBook(1)` returns nil; afterwards `GetBook(2)` reads
position 1 of a one-element sequence and panics. -/
theorem removeBook_strands_later_ids :
    Consistent twoBooks ∧
    twoBooks.GetBook 2 = .ok (NewBook 2 "b" "y" 20) ∧
    (twoBooks.RemoveBook 1).1 = .ok () ∧
    (twoBooks.RemoveBook 1).2.GetBook 2 = .indexOutOfRange := by
  refine ⟨twoBooks_consistent, rfl, rfl, rfl⟩

/-- C3 (the store never panics): fails on the code. In the store reached by
`AddBook`, `AddBook`, `RemoveBook(1)` the position stored for id 2 is 1, which
is not below the length 1 of the sequence, and `GetBook(2)`, `UpdateBook(2)`
and `RemoveBook(2)` all panic with an index out of range. -/
theorem reachable_store_panics :
    twoBooksFirstRemoved.index 2 = some 1 ∧
    twoBooksFirstRemoved.books.length = 1 ∧
    twoBooksFirstRemoved.GetBook 2 = .indexOutOfRange ∧
    (twoBooksFirstRemoved.UpdateBook 2 "n" "w" 40).1 = .indexOutOfRange ∧
    (twoBooksFirstRemoved.RemoveBook 2).1 = .indexOutOfRange := by
  refine ⟨rfl, rfl, rfl, rfl, rfl⟩

/-- C4 (a removal drops exactly the record with the given id): fails on the
code. In the store reached by three `AddBook` calls and `RemoveBook(1)`, the
ids 2 and 3 are in the index; `RemoveBook(2)` returns nil but deletes the
record with ID 3 and keeps the one with ID 2, and `RemoveBook(3)` panics. -/
theorem removeBook_drops_wrong_record :
    threeBooksFirstRemoved.GetBooks = [NewBook 2 "b" "y" 20, NewBook 3 "c" "z" 30] ∧
    threeBooksFirstRemoved.index 2 = some 1 ∧
    (threeBooksFirstRemoved.RemoveBook 2).1 = .ok () ∧
    (threeBooksFirstRemoved.RemoveBook 2).2.GetBooks = [NewBook 2 "b" "y" 20] ∧
    threeBooksFirstRemoved.GetBooks.filter (fun b => b.ID ≠ 2) = [NewBook 3 "c" "z" 30] ∧
    threeBooksFirstRemoved.index 3 = some 2 ∧
    (threeBooksFirstRemoved.RemoveBook 3).1 = .indexOutOfRange := by
  refine ⟨rfl, rfl, rfl, rfl, rfl, rfl, rfl⟩

/-- C5 (postcondition of `UpdateBook`): fails on the code. In the store reached
by three `AddBook` calls and `RemoveBook(1)`, id 2 is in the index, and
`UpdateBook(2, n, w)` at clock reading 40 overwrites the record with ID 3:
`GetBook(2)` afterwards returns a record with ID 3 and the creation time of
book 3, and the record with ID 2 is as it was. `UpdateBook(3, n, w)` panics. -/
theorem updateBook_hits_wrong_record :
    threeBooksFirstRemoved.index 2 = some 1 ∧
    (threeBooksFirstRemoved.UpdateBook 2 "n" "w" 40).1 =
      .ok { ID := 3, Name := "n", Author := "w", CreatedAt := 30, UpdatedAt := 40 } ∧
    (threeBooksFirstRemoved.UpdateBook 2 "n" "w" 40).2.GetBook 2 =
      .ok { ID := 3, Name := "n", Author := "w", CreatedAt := 30, UpdatedAt := 40 } ∧
    (threeBooksFirstRemoved.UpdateBook 2 "n" "w" 40).2.GetBooks =
      [NewBook 2 "b" "y" 20,
       { ID := 3, Name := "n", Author := "w", CreatedAt := 30, UpdatedAt := 40 }] ∧
    threeBooksFirstRemoved.index 3 = some 2 ∧
    (threeBooksFirstRemoved.UpdateBook 3 "n" "w" 40).1 = .indexOutOfRange := by
  refine ⟨rfl, rfl, rfl, rfl, rfl, rfl⟩

/-! ## Facts about single calls and runs -/

theorem run_nil (db : DB) : run db [] = db := rfl

theorem run_cons (db : DB) (op : Op) (ops : List Op) :
    run db (op :: ops) = run (step db op) ops := rfl

theorem run_append (db : DB) (ops1 ops2 : List Op) :
    run db (ops1 ++ ops2) = run (run db ops1) ops2 := by
  simp [run, List.foldl_append]

theorem addBook_lastBookID (db : DB) (name author : String) (now : Int) :
    (db.AddBook name author now).2.lastBookID = db.lastBookID + 1 := rfl

theorem addBook_ID (db : DB) (name author : String) (now : Int) :
    (db.AddBook name author now).1.ID = db.lastBookID + 1 := rfl

theorem addBook_index (db : DB) (name author : String) (now : Int) :
    (db.AddBook name author now).2.index =
      mapSet db.index (db.lastBookID + 1) db.books.length := rfl

theorem updateBook_lastBookID (db : DB) (id : Int) (name author : String) (now : Int) :
    (db.UpdateBook id name author now).2.lastBookID = db.lastBookID := by
  unfold DB.UpdateBook
  cases db.index id with
  | none => rfl
  | some i =>
    simp only
    cases db.books[i]? <;> rfl

theorem updateBook_index (db : DB) (id : Int) (name author : String) (now : Int) :
    (db.UpdateBook id name author now).2.index = db.index := by
  unfold DB.UpdateBook
  cases db.index id with
  | none => rfl
  | some i =>
    simp only
    cases db.books[i]? <;> rfl

theorem removeBook_lastBookID (db : DB) (id : Int) :
    (db.RemoveBook id).2.lastBookID = db.lastBookID := by
  unfold DB.RemoveBook
  cases db.index id with
  | none => rfl
  | some i =>
    simp only
    cases slicesDelete db.books i (i + 1) <;> rfl

/-- A call of `RemoveBook` leaves the index as it was or deletes the one key. -/
theorem removeBook_index (db : DB) (id : Int) :
    (db.RemoveBook id).2.index = db.index ∨
      (db.RemoveBook id).2.index = mapDelete db.index id := by
  unfold DB.RemoveBook
  cases db.index id with
  | none => exact Or.inl rfl
  | some i =>
    simp only
    cases slicesDelete db.books i (i + 1) with
    | none => exact Or.inl rfl
    | some l => exact Or.inr rfl

/-- When `RemoveBook` returns nil, the id was a key of the index and is none
afterwards. -/
theorem removeBook_ok (db : DB) (id : Int) (h : (db.RemoveBook id).1 = .ok ()) :
    (∃ p, db.index id = some p) ∧ (db.RemoveBook id).2.index id = none := by
  unfold DB.RemoveBook at h ⊢
  cases hi : db.index id with
  | none => simp [hi] at h
  | some i =>
    simp only [hi] at h ⊢
    cases hd : slicesDelete db.books i (i + 1) with
    | none => simp [hd] at h
    | some l => simp [mapDelete]

theorem step_lastBookID (db : DB) (op : Op) :
    (step db op).lastBookID = db.lastBookID + (if op.isAdd then 1 else 0) := by
  cases op with
  | addBook name author now => simp [step, Op.isAdd, addBook_lastBookID]
  | getBooks => simp [step, Op.isAdd]
  | getBook id => simp [step, Op.isAdd]
  | updateBook id name author now => simp [step, Op.isAdd, updateBook_lastBookID]
  | removeBook id => simp [step, Op.isAdd, removeBook_lastBookID]

theorem run_lastBookID (ops : List Op) (db : DB) :
    (run db ops).lastBookID = db.lastBookID + (ops.countP Op.isAdd : Nat) := by
  induction ops generalizing db with
  | nil => simp [run_nil]
  | cons op ops ih =>
    rw [run_cons, ih, step_lastBookID, List.countP_cons]
    cases op.isAdd <;> simp
    omega

theorem indexBounded_fresh : IndexBounded DB.fresh :=
  ⟨le_refl _, fun _ _ h => by simp [DB.fresh] at h⟩

theorem indexBounded_step (db : DB) (op : Op) (h : IndexBounded db) :
    IndexBounded (step db op) := by
  obtain ⟨h0, hb⟩ := h
  cases op with
  | addBook name author now =>
    refine ⟨by simp only [step, addBook_lastBookID]; omega, ?_⟩
    intro id p hp
    simp only [step, addBook_index, addBook_lastBookID, mapSet] at hp ⊢
    by_cases hid : id = db.lastBookID + 1
    · omega
    · rw [if_neg hid] at hp
      have := hb id p hp
      omega
  | getBooks => exact ⟨h0, hb⟩
  | getBook id => exact ⟨h0, hb⟩
  | updateBook id name author now =>
    refine ⟨by simp only [step, updateBook_lastBookID]; exact h0, ?_⟩
    intro j p hp
    simp only [step, updateBook_index, updateBook_lastBookID] at hp ⊢
    exact hb j p hp
  | removeBook id =>
    refine ⟨by simp only [step, removeBook_lastBookID]; exact h0, ?_⟩
    intro j p hp
    simp only [step, removeBook_lastBookID] at hp ⊢
    rcases removeBook_index db id with hi | hi
    · rw [hi] at hp
      exact hb j p hp
    · rw [hi] at hp
      simp only [mapDelete] at hp
      by_cases hj : j = id
      · simp [hj] at hp
      · rw [if_neg hj] at hp
        exact hb j p hp

theorem indexBounded_run (ops : List Op) (db : DB) (h : IndexBounded db) :
    IndexBounded (run db ops) := by
  induction ops generalizing db with
  | nil => exact h
  | cons op ops ih => exact ih _ (indexBounded_step db op h)

/-- An id at most the counter that is not a key of the index stays out of the
index under one call. -/
theorem retired_step (db : DB) (op : Op) (id : Int)
    (h : db.index id = none ∧ id ≤ db.lastBookID) :
    (step db op).index id = none ∧ id ≤ (step db op).lastBookID := by
  obtain ⟨hn, hle⟩ := h
  cases op with
  | addBook name author now =>
    simp only [step, addBook_index, addBook_lastBookID, mapSet]
    have hid : id ≠ db.lastBookID + 1 := by omega
    rw [if_neg hid]
    exact ⟨hn, by omega⟩
  | getBooks => exact ⟨hn, hle⟩
  | getBook j => exact ⟨hn, hle⟩
  | updateBook j name author now =>
    simp only [step, updateBook_index, updateBook_lastBookID]
    exact ⟨hn, hle⟩
  | removeBook j =>
    simp only [step, removeBook_lastBookID]
    refine ⟨?_, hle⟩
    rcases removeBook_index db j with hi | hi
    · rw [hi]; exact hn
    · rw [hi]; simp only [mapDelete]
      by_cases hj : id = j
      · simp [hj]
      · rw [if_neg hj]; exact hn

theorem retired_run (ops : List Op) (db : DB) (id : Int)
    (h : db.index id = none ∧ id ≤ db.lastBookID) :
    (run db ops).index id = none := by
  induction ops generalizing db with
  | nil => exact h.1
  | cons op ops ih => exact ih _ (retired_step db op id h)

/-- The `AddBook` calls of a run return the ids after the counter, one by one. -/
theorem addedIDs_eq (ops : List Op) (db : DB) :
    addedIDs db ops =
      (List.range (ops.countP Op.isAdd)).map (fun (k : Nat) => db.lastBookID + 1 + (k : Int)) := by
  induction ops generalizing db with
  | nil => simp [addedIDs]
  | cons op ops ih =>
    cases op with
    | addBook name author now =>
      simp only [addedIDs, Op.isAdd, List.countP_cons_of_pos, ih, addBook_lastBookID,
        addBook_ID, List.range_succ_eq_map, List.map_cons, List.map_map]
      simp only [Nat.cast_zero, add_zero, List.cons.injEq, true_and]
      apply List.map_congr_left
      intro k _
      simp only [Function.comp, Nat.cast_succ]
      omega
    | getBooks => simp [addedIDs, Op.isAdd, ih, step]
    | getBook id => simp [addedIDs, Op.isAdd, ih, step]
    | updateBook id name author now =>
      simp [addedIDs, Op.isAdd, ih, step, updateBook_lastBookID]
    | removeBook id => simp [addedIDs, Op.isAdd, ih, step, removeBook_lastBookID]

/-- In a run from a fresh store, a key of the index was returned by `AddBook`. -/
theorem index_some_mem_addedIDs (ops : List Op) (id : Int) (p : Nat)
    (h : (run DB.fresh ops).index id = some p) : id ∈ addedIDs DB.fresh ops := by
  have hb := (indexBounded_run ops DB.fresh indexBounded_fresh).2 id p h
  rw [run_lastBookID] at hb
  have h0 : DB.fresh.lastBookID = 0 := rfl
  rw [addedIDs_eq]
  apply List.mem_map.mpr
  refine ⟨(id - 1).toNat, List.mem_range.mpr (by omega), ?_⟩
  show DB.fresh.lastBookID + 1 + (((id - 1).toNat : Nat) : Int) = id
  omega

/-- An id on which `RemoveBook` returned nil is not a key of the index at the
end of the run. -/
theorem removedIDs_index_none (ops : List Op) (db : DB) (id : Int)
    (hb : IndexBounded db) (h : id ∈ removedIDs db ops) :
    (run db ops).index id = none := by
  induction ops generalizing db with
  | nil => simp [removedIDs] at h
  | cons op ops ih =>
    rw [run_cons]
    have hs := indexBounded_step db op hb
    cases op with
    | addBook name author now => exact ih _ hs (by simpa [removedIDs, step] using h)
    | getBooks => exact ih _ hs (by simpa [removedIDs, step] using h)
    | getBook j => exact ih _ hs (by simpa [removedIDs, step] using h)
    | updateBook j name author now => exact ih _ hs (by simpa [removedIDs, step] using h)
    | removeBook j =>
      simp only [removedIDs] at h
      by_cases hok : (db.RemoveBook j).1 = .ok ()
      · rw [if_pos hok, List.mem_cons] at h
        rcases h with rfl | h
        · obtain ⟨⟨p, hp⟩, hnone⟩ := removeBook_ok db id hok
          apply retired_run
          refine ⟨hnone, ?_⟩
          simp only [step, removeBook_lastBookID]
          exact (hb.2 id p hp).2
        · exact ih _ hs h
      · rw [if_neg hok] at h
        exact ih _ hs h

/-- An id on which `RemoveBook` returned nil is at most the counter at the end
of the run. -/
theorem removedIDs_le_lastBookID (ops : List Op) (db : DB) (id : Int)
    (hb : IndexBounded db) (h : id ∈ removedIDs db ops) :
    id ≤ (run db ops).lastBookID := by
  induction ops generalizing db with
  | nil => simp [removedIDs] at h
  | cons op ops ih =>
    rw [run_cons]
    have hs := indexBounded_step db op hb
    cases op with
    | addBook name author now => exact ih _ hs (by simpa [removedIDs, step] using h)
    | getBooks => exact ih _ hs (by simpa [removedIDs, step] using h)
    | getBook j => exact ih _ hs (by simpa [removedIDs, step] using h)
    | updateBook j name author now => exact ih _ hs (by simpa [removedIDs, step] using h)
    | removeBook j =>
      simp only [removedIDs] at h
      by_cases hok : (db.RemoveBook j).1 = .ok ()
      · rw [if_pos hok, List.mem_cons] at h
        rcases h with rfl | h
        · obtain ⟨⟨p, hp⟩, _⟩ := removeBook_ok db id hok
          have h1 := (hb.2 id p hp).2
          rw [run_lastBookID]
          simp only [step, removeBook_lastBookID]
          omega
        · exact ih _ hs h
      · rw [if_neg hok] at h
        exact ih _ hs h

/-- Along `run`, which leaves the locks out, the ids handed out from a fresh
store are 1, 2, ..., one per `AddBook` call; they are strictly increasing, and
no id on which `RemoveBook` returned nil is handed out in a continuation. -/
theorem addedIDs_count_up (ops more : List Op) :
    addedIDs DB.fresh ops =
      (List.range (ops.countP Op.isAdd)).map (fun (k : Nat) => (k : Int) + 1) ∧
    (addedIDs DB.fresh ops).Pairwise (fun a b => a < b) ∧
    (removedIDs DB.fresh ops).Disjoint (addedIDs (run DB.fresh ops) more) := by
  have h0 : DB.fresh.lastBookID = 0 := rfl
  have heq : addedIDs DB.fresh ops =
      (List.range (ops.countP Op.isAdd)).map (fun (k : Nat) => (k : Int) + 1) := by
    rw [addedIDs_eq, h0]
    apply List.map_congr_left
    intro k _
    omega
  refine ⟨heq, ?_, ?_⟩
  · rw [heq, List.pairwise_map]
    apply List.Pairwise.imp _ (List.pairwise_lt_range _)
    intro a b hab
    omega
  · intro id hr ha
    have hle := removedIDs_le_lastBookID ops DB.fresh id indexBounded_fresh hr
    rw [addedIDs_eq, List.mem_map] at ha
    obtain ⟨k, _, hk⟩ := ha
    omega

/-! ## The defect of `UpdateBook`: a panic leaves the read lock held -/

/-- `AddBook` releases the locks it takes. -/
theorem addBook_leaves_no_lock : leavesLockHeld AddBookEvents = false := rfl

/-- The ids that the code returns are the first of the ids handed out along
`run`. -/
theorem returnedIDs_prefix (ops : List Op) (db : DB) :
    returnedIDs db ops <+: addedIDs db ops := by
  induction ops generalizing db with
  | nil => simp [returnedIDs, addedIDs]
  | cons op ops ih =>
    cases op with
    | addBook name author now =>
      simp only [returnedIDs, addedIDs]
      exact (List.prefix_cons_inj _).mpr (ih _)
    | getBooks =>
      simp only [returnedIDs, addedIDs]
      split
      · exact List.nil_prefix
      · exact ih _
    | getBook id =>
      simp only [returnedIDs, addedIDs]
      split
      · exact List.nil_prefix
      · exact ih _
    | updateBook id name author now =>
      simp only [returnedIDs, addedIDs]
      split
      · exact List.nil_prefix
      · exact ih _
    | removeBook id =>
      simp only [returnedIDs, addedIDs]
      split
      · exact List.nil_prefix
      · exact ih _

/-- When every call of a sequence ends with no lock held, the code returns all
the ids handed out along `run`. -/
theorem returnedIDs_of_noLockLeft (ops : List Op) (db : DB) (h : noLockLeft db ops = true) :
    returnedIDs db ops = addedIDs db ops := by
  induction ops generalizing db with
  | nil => simp [returnedIDs, addedIDs]
  | cons op ops ih =>
    simp only [noLockLeft, Bool.and_eq_true, Bool.not_eq_true'] at h
    cases op with
    | addBook name author now =>
      simp only [returnedIDs, addedIDs]
      have hrest := ih _ h.2
      simp only [step] at hrest
      rw [hrest]
    | getBooks => simp only [returnedIDs, addedIDs, h.1]; exact ih _ h.2
    | getBook id => simp only [returnedIDs, addedIDs, h.1]; exact ih _ h.2
    | updateBook id name author now =>
      simp only [returnedIDs, addedIDs, h.1]; exact ih _ h.2
    | removeBook id => simp only [returnedIDs, addedIDs, h.1]; exact ih _ h.2

/-- The ids that the code returns from a fresh store are 1, 2, ... in call
order, so they are strictly increasing. -/
theorem returnedIDs_count_up (ops : List Op) :
    returnedIDs DB.fresh ops =
      (List.range (returnedIDs DB.fresh ops).length).map (fun (k : Nat) => (k : Int) + 1) ∧
    (returnedIDs DB.fresh ops).Pairwise (fun a b => a < b) := by
  have hpre := returnedIDs_prefix ops DB.fresh
  have heq : returnedIDs DB.fresh ops =
      (List.range (returnedIDs DB.fresh ops).length).map (fun (k : Nat) => (k : Int) + 1) := by
    have hlen := hpre.length_le
    rw [(addedIDs_count_up ops []).1] at hpre hlen
    simp only [List.length_map, List.length_range] at hlen
    have htake := List.prefix_iff_eq_take.mp hpre
    rw [← List.map_take, List.take_range, Nat.min_eq_left hlen] at htake
    exact htake
  refine ⟨heq, ?_⟩
  rw [heq, List.pairwise_map]
  apply List.Pairwise.imp _ (List.pairwise_lt_range _)
  intro a b hab
  omega

/-- C6 (the k-th `AddBook` call returns ID k, in any sequence of calls): fails
on the code. After `AddBook`, `AddBook`, `RemoveBook(1)` the index holds the
stale position 1 for id 2; `UpdateBook(2, ..)` takes the read lock and panics
on `db.books[1]` before it releases it. The third `AddBook` call of the
sequence then waits forever in the `Lock()` of `newBookID`: of its three
`AddBook` calls the sequence returns the ids 1 and 2 and nothing more. -/
theorem addBook_blocks_after_update_panic :
    (twoBooksFirstRemoved.UpdateBook 2 "n" "w" 40).1 = .indexOutOfRange ∧
    twoBooksFirstRemoved.UpdateBookEvents 2 = [.RLock] ∧
    leavesLockHeld (opEvents twoBooksFirstRemoved (.updateBook 2 "n" "w" 40)) = true ∧
    staleUpdateThenAdd.countP Op.isAdd = 3 ∧
    returnedIDs DB.fresh staleUpdateThenAdd = [1, 2] := by
  refine ⟨rfl, rfl, rfl, rfl, rfl⟩

/-! ## Properties that hold on the code -/

/-- C7 (`GetBook` fails for absent ids, for good after a removal): at the end
of a run of any calls from a fresh store, `GetBook(id)` returns
`ErrBookNotFound` when no `AddBook` call of the run returned `id`, and when
some `RemoveBook(id)` call of the run returned nil, whatever calls came after
it. -/
theorem getBook_notFound_absent_or_removed (ops : List Op) (id : Int)
    (h : id ∉ addedIDs DB.fresh ops ∨ id ∈ removedIDs DB.fresh ops) :
    (run DB.fresh ops).GetBook id = .ErrBookNotFound := by
  have hnone : (run DB.fresh ops).index id = none := by
    rcases h with h | h
    · cases hi : (run DB.fresh ops).index id with
      | none => rfl
      | some p => exact absurd (index_some_mem_addedIDs ops id p hi) h
    · exact removedIDs_index_none ops DB.fresh id indexBounded_fresh h
  simp [DB.GetBook, hnone]

/-- Witness for C7, on a run that adds two books, removes the first and adds a
third: id 1 was removed and id 7 was never returned. -/
theorem getBook_notFound_absent_or_removed_witness :
    (1 ∈ removedIDs DB.fresh addRemoveAdd ∧
      (run DB.fresh addRemoveAdd).GetBook 1 = .ErrBookNotFound) ∧
    (7 ∉ addedIDs DB.fresh addRemoveAdd ∧
      (run DB.fresh addRemoveAdd).GetBook 7 = .ErrBookNotFound) :=
  ⟨⟨by decide, getBook_notFound_absent_or_removed addRemoveAdd 1 (Or.inr (by decide))⟩,
   ⟨by decide, getBook_notFound_absent_or_removed addRemoveAdd 7 (Or.inl (by decide))⟩⟩

/-- C8 (add/get round trip): in any store, whatever its books, index and
counter, `GetBook` on the id of the record `AddBook` has just returned yields
that record, which carries the given name and author and equal creation and
update times. -/
theorem addBook_getBook_roundtrip (db : DB) (name author : String) (now : Int) :
    (db.AddBook name author now).2.GetBook (db.AddBook name author now).1.ID =
      .ok (db.AddBook name author now).1 ∧
    (db.AddBook name author now).1.Name = name ∧
    (db.AddBook name author now).1.Author = author ∧
    (db.AddBook name author now).1.CreatedAt = (db.AddBook name author now).1.UpdatedAt := by
  refine ⟨?_, rfl, rfl, rfl⟩
  simp [DB.GetBook, DB.AddBook, DB.newBookID, mapSet, NewBook]

/-- C9 (failure is atomic): when `id` is not a key of the index, `UpdateBook`
and `RemoveBook` return `ErrBookNotFound` and the store afterwards is the store
before, so `GetBooks` returns what it returned before. -/
theorem notFound_leaves_store (db : DB) (id : Int) (name author : String) (now : Int)
    (h : db.index id = none) :
    db.UpdateBook id name author now = (.ErrBookNotFound, db) ∧
    db.RemoveBook id = (.ErrBookNotFound, db) ∧
    (db.UpdateBook id name author now).2.GetBooks = db.GetBooks ∧
    (db.RemoveBook id).2.GetBooks = db.GetBooks := by
  have hu : db.UpdateBook id name author now = (.ErrBookNotFound, db) := by
    simp [DB.UpdateBook, h]
  have hr : db.RemoveBook id = (.ErrBookNotFound, db) := by
    simp [DB.RemoveBook, h]
  exact ⟨hu, hr, by rw [hu], by rw [hr]⟩

/-- Witness for C9: id 7 in the store with books 1 and 2. -/
theorem notFound_leaves_store_witness :
    twoBooks.index 7 = none ∧
    twoBooks.UpdateBook 7 "n" "w" 40 = (.ErrBookNotFound, twoBooks) ∧
    twoBooks.RemoveBook 7 = (.ErrBookNotFound, twoBooks) ∧
    (twoBooks.UpdateBook 7 "n" "w" 40).2.GetBooks = twoBooks.GetBooks ∧
    (twoBooks.RemoveBook 7).2.GetBooks = twoBooks.GetBooks :=
  ⟨rfl, notFound_leaves_store twoBooks 7 "n" "w" 40 rfl⟩

/-- C10 (end-to-end scenario): on the store of the first `NewDB` call, at any
clock readings, the two `AddBook` calls of `init` return IDs 1 and 2,
`GetBooks` is these two records in that order, `RemoveBook(1)` returns nil,
`GetBooks` is then the record with ID 2 alone, `GetBook(1)` returns
`ErrBookNotFound`, and `AddBook("New Book", "X")` returns ID 3. -/
theorem end_to_end_scenario (t1 t2 t3 : Int) :
    NewDB false = (some DB.fresh, true) ∧
    (DB.fresh.AddBook "Go Programming" "John Doe" t1).1.ID = 1 ∧
    ((DB.fresh.AddBook "Go Programming" "John Doe" t1).2.AddBook
      "Concurrency in Go" "Jane Smith" t2).1.ID = 2 ∧
    (initStore t1 t2).GetBooks = [NewBook 1 "Go Programming" "John Doe" t1,
                                  NewBook 2 "Concurrency in Go" "Jane Smith" t2] ∧
    ((initStore t1 t2).RemoveBook 1).1 = .ok () ∧
    ((initStore t1 t2).RemoveBook 1).2.GetBooks =
      [NewBook 2 "Concurrency in Go" "Jane Smith" t2] ∧
    ((initStore t1 t2).RemoveBook 1).2.GetBook 1 = .ErrBookNotFound ∧
    (((initStore t1 t2).RemoveBook 1).2.AddBook "New Book" "X" t3).1.ID = 3 := by
  refine ⟨rfl, rfl, rfl, rfl, rfl, rfl, rfl, rfl⟩

/-- Overwriting a position with a record that agrees with the old one on `f`
keeps the list of the `f` values. -/
theorem map_set_same {α : Type} (f : Book → α) (l : List Book) (i : Nat) (b c : Book)
    (hb : l[i]? = some b) (hf : f c = f b) : (l.set i c).map f = l.map f := by
  apply List.ext_getElem?
  intro j
  simp only [List.getElem?_map, List.getElem?_set]
  by_cases hij : i = j
  · subst hij
    rw [if_pos rfl, hb]
    have hlt : i < l.length := by
      by_contra hge
      rw [List.getElem?_eq_none (by omega)] at hb
      exact absurd hb (by simp)
    simp [hlt, hf]
  · rw [if_neg hij]

/-- C11 (frame of `UpdateBook`): in any store and for any arguments, a call of
`UpdateBook` leaves the index and the counter as they were, keeps the length
of the sequence and, position by position, the ID and the creation time of
every record, and changes the record of at most one position. -/
theorem updateBook_frame (db : DB) (id : Int) (name author : String) (now : Int) :
    (db.UpdateBook id name author now).2.index = db.index ∧
    (db.UpdateBook id name author now).2.lastBookID = db.lastBookID ∧
    (db.UpdateBook id name author now).2.books.length = db.books.length ∧
    (db.UpdateBook id name author now).2.books.map (fun b => b.ID) =
      db.books.map (fun b => b.ID) ∧
    (db.UpdateBook id name author now).2.books.map (fun b => b.CreatedAt) =
      db.books.map (fun b => b.CreatedAt) ∧
    ∃ i : Nat, ∀ j : Nat, j ≠ i →
      (db.UpdateBook id name author now).2.books[j]? = db.books[j]? := by
  refine ⟨updateBook_index db id name author now,
    updateBook_lastBookID db id name author now, ?_⟩
  unfold DB.UpdateBook
  cases db.index id with
  | none => exact ⟨rfl, rfl, rfl, 0, fun _ _ => rfl⟩
  | some i =>
    simp only
    cases hb : db.books[i]? with
    | none => exact ⟨rfl, rfl, rfl, 0, fun _ _ => rfl⟩
    | some b =>
      simp only
      refine ⟨List.length_set _ _ _, map_set_same _ _ _ _ _ hb rfl,
        map_set_same _ _ _ _ _ hb rfl, i, ?_⟩
      intro j hj
      rw [List.getElem?_set]
      rw [if_neg (fun h => hj h.symm)]

/-- The records after one call are records from before the call, the record
that `AddBook` appends, or a record with a new name, author and update time. -/
theorem mem_step_books (db : DB) (op : Op) (b : Book) (h : b ∈ (step db op).books) :
    b ∈ db.books ∨
    (∃ name author now, op = .addBook name author now ∧
      b = NewBook (db.lastBookID + 1) name author now) ∨
    (∃ id name author now c, op = .updateBook id name author now ∧ c ∈ db.books ∧
      b = { c with Name := name, Author := author, UpdatedAt := now }) := by
  cases op with
  | addBook name author now =>
    simp only [step, DB.AddBook, DB.newBookID, List.mem_append, List.mem_singleton] at h
    rcases h with h | h
    · exact Or.inl h
    · exact Or.inr (Or.inl ⟨name, author, now, rfl, h⟩)
  | getBooks => exact Or.inl h
  | getBook id => exact Or.inl h
  | updateBook id name author now =>
    simp only [step, DB.UpdateBook] at h
    cases hi : db.index id with
    | none => rw [hi] at h; exact Or.inl h
    | some i =>
      rw [hi] at h
      simp only at h
      cases hb : db.books[i]? with
      | none => rw [hb] at h; exact Or.inl h
      | some c =>
        rw [hb] at h
        simp only at h
        rcases List.mem_or_eq_of_mem_set h with h | h
        · exact Or.inl h
        · exact Or.inr (Or.inr ⟨id, name, author, now, c, rfl,
            List.getElem?_mem hb, h⟩)
  | removeBook id =>
    simp only [step, DB.RemoveBook] at h
    cases hi : db.index id with
    | none => rw [hi] at h; exact Or.inl h
    | some i =>
      rw [hi] at h
      simp only at h
      cases hd : slicesDelete db.books i (i + 1) with
      | none => rw [hd] at h; exact Or.inl h
      | some l =>
        rw [hd] at h
        simp only at h
        unfold slicesDelete at hd
        split at hd
        · have hl := Option.some.inj hd
          rw [← hl, List.mem_append] at h
          rcases h with h | h
          · exact Or.inl (List.mem_of_mem_take h)
          · exact Or.inl (List.mem_of_mem_drop h)
        · exact absurd hd (by simp)

/-- When the clock readings of a run do not decrease and no record of the store
was created after any of them, every record at the end of the run was updated
no earlier than it was created. -/
theorem run_timestamps (ops : List Op) (db : DB)
    (hsorted : (opTimes ops).Pairwise (fun a b => a ≤ b))
    (hdb : ∀ b ∈ db.books, b.CreatedAt ≤ b.UpdatedAt ∧ ∀ t ∈ opTimes ops, b.CreatedAt ≤ t) :
    ∀ b ∈ (run db ops).books, b.CreatedAt ≤ b.UpdatedAt := by
  induction ops generalizing db with
  | nil => exact fun b hb => (hdb b hb).1
  | cons op ops ih =>
    rw [run_cons]
    have htail : (opTimes ops).Pairwise (fun a b => a ≤ b) := by
      cases op <;> simp only [opTimes, List.pairwise_cons] at hsorted <;>
        first | exact hsorted.2 | exact hsorted
    apply ih _ htail
    intro b hb
    rcases mem_step_books db op b hb with h | ⟨name, author, now, rfl, rfl⟩ |
      ⟨id, name, author, now, c, rfl, hc, rfl⟩
    · refine ⟨(hdb b h).1, fun t ht => (hdb b h).2 t ?_⟩
      cases op <;> simp only [opTimes, List.mem_cons] <;>
        first | exact Or.inr ht | exact ht
    · simp only [opTimes, List.pairwise_cons] at hsorted
      exact ⟨le_refl _, fun t ht => hsorted.1 t ht⟩
    · simp only [opTimes, List.mem_cons, List.pairwise_cons] at hsorted hdb
      refine ⟨(hdb c hc).2 now (Or.inl rfl), fun t ht => (hdb c hc).2 t (Or.inr ht)⟩

/-- C12 (timestamp invariant): when the clock readings of the `AddBook` and
`UpdateBook` calls of a run from a fresh store do not decrease, every record of
the store at the end of the run has `UpdatedAt >= CreatedAt`. -/
theorem updatedAt_ge_createdAt (ops : List Op)
    (h : (opTimes ops).Pairwise (fun a b => a ≤ b)) :
    ∀ b ∈ (run DB.fresh ops).books, b.CreatedAt ≤ b.UpdatedAt := by
  apply run_timestamps ops DB.fresh h
  intro b hb
  simp [DB.fresh] at hb

/-- Witness for C12: two additions at 10 and 20 and an update at 30. -/
theorem updatedAt_ge_createdAt_witness :
    (opTimes addAddUpdate).Pairwise (fun a b => a ≤ b) ∧
    ∀ b ∈ (run DB.fresh addAddUpdate).books, b.CreatedAt ≤ b.UpdatedAt :=
  ⟨by decide, updatedAt_ge_createdAt addAddUpdate (by decide)⟩

/-- A run of `AddBook` calls appends one record per call, with the ids after
the counter. -/
theorem run_adds_books (xs : List (String × String × Int)) (db : DB) :
    (run db (xs.map toAdd)).books =
      db.books ++ List.zipWith
        (fun (k : Nat) (x : String × String × Int) =>
          NewBook (db.lastBookID + 1 + (k : Int)) x.1 x.2.1 x.2.2)
        (List.range xs.length) xs := by
  induction xs generalizing db with
  | nil => simp [run_nil]
  | cons x xs ih =>
    rw [List.map_cons, run_cons, ih]
    simp only [toAdd, step, DB.AddBook, DB.newBookID, List.length_cons,
      List.range_succ_eq_map, List.zipWith_cons_cons, List.zipWith_map_left,
      List.append_assoc, List.singleton_append, Nat.cast_zero, add_zero]
    congr 2
    apply congrArg (fun f => List.zipWith f (List.range xs.length) xs)
    funext k y
    simp only [Nat.cast_succ]
    congr 1
    omega

/-- C13 (`GetBooks` lists the records in insertion order and is read-only):
after `AddBook` calls on a fresh store for a list of (name, author, clock
reading) triples, `GetBooks` returns as many records as there are triples, the
record at position `k` (from 0) being the new book with ID `k + 1` and the
name and author of triple `k`; and in any store a `GetBooks` or `GetBook` call
leaves the store as it was. -/
theorem getBooks_insertion_order (xs : List (String × String × Int)) (db : DB) (id : Int) :
    (run DB.fresh (xs.map toAdd)).GetBooks =
      List.zipWith
        (fun (k : Nat) (x : String × String × Int) => NewBook ((k : Int) + 1) x.1 x.2.1 x.2.2)
        (List.range xs.length) xs ∧
    (run DB.fresh (xs.map toAdd)).GetBooks.length = xs.length ∧
    step db .getBooks = db ∧
    step db (.getBook id) = db := by
  have h : (run DB.fresh (xs.map toAdd)).GetBooks =
      List.zipWith
        (fun (k : Nat) (x : String × String × Int) => NewBook ((k : Int) + 1) x.1 x.2.1 x.2.2)
        (List.range xs.length) xs := by
    unfold DB.GetBooks
    rw [run_adds_books]
    simp only [DB.fresh, List.nil_append]
    apply congrArg (fun f => List.zipWith f (List.range xs.length) xs)
    funext k y
    congr 1
    omega
  refine ⟨h, ?_, rfl, rfl⟩
  rw [h]
  simp

theorem dense_fresh : Dense DB.fresh := by
  refine ⟨rfl, ?_, ?_⟩
  · intro id
    have : ¬ (1 ≤ id ∧ id ≤ ((DB.fresh.books.length : Nat) : Int)) := by
      simp only [DB.fresh, List.length_nil, Nat.cast_zero]
      omega
    rw [if_neg this]
    rfl
  · intro p b h
    simp [DB.fresh] at h

theorem dense_addBook (db : DB) (name author : String) (now : Int) (h : Dense db) :
    Dense (db.AddBook name author now).2 := by
  obtain ⟨hlast, hidx, hbooks⟩ := h
  refine ⟨?_, ?_, ?_⟩
  · simp only [DB.AddBook, DB.newBookID, List.length_append, List.length_singleton,
      Nat.cast_add, Nat.cast_one]
    omega
  · intro id
    simp only [DB.AddBook, DB.newBookID, NewBook, mapSet, List.length_append,
      List.length_singleton, Nat.cast_add, Nat.cast_one]
    by_cases hid : id = db.lastBookID + 1
    · rw [if_pos hid, if_pos (by omega)]
      congr 1
      omega
    · rw [if_neg hid, hidx id]
      by_cases hr : 1 ≤ id ∧ id ≤ (db.books.length : Int)
      · rw [if_pos hr, if_pos (by omega)]
      · rw [if_neg hr, if_neg (by omega)]
  · intro p b hp
    simp only [DB.AddBook, DB.newBookID] at hp
    by_cases hlt : p < db.books.length
    · rw [List.getElem?_append_left hlt] at hp
      exact hbooks p b hp
    · rw [List.getElem?_append_right (by omega)] at hp
      have hp0 : p - db.books.length = 0 := by
        by_contra hne
        rw [List.getElem?_eq_none (by simp; omega)] at hp
        exact absurd hp (by simp)
      rw [hp0] at hp
      simp only [List.getElem?_cons_zero, Option.some.injEq] at hp
      rw [← hp]
      simp only [NewBook]
      omega

theorem dense_updateBook (db : DB) (id : Int) (name author : String) (now : Int)
    (h : Dense db) : Dense (db.UpdateBook id name author now).2 := by
  obtain ⟨hlast, hidx, hbooks⟩ := h
  unfold DB.UpdateBook
  cases db.index id with
  | none => exact ⟨hlast, hidx, hbooks⟩
  | some i =>
    simp only
    cases hb : db.books[i]? with
    | none => exact ⟨hlast, hidx, hbooks⟩
    | some c =>
      simp only
      refine ⟨?_, ?_, ?_⟩
      · rw [List.length_set]; exact hlast
      · intro j
        rw [List.length_set]
        exact hidx j
      · intro p b hp
        rw [List.getElem?_set] at hp
        by_cases hip : i = p
        · subst hip
          rw [if_pos rfl] at hp
          split at hp
          · have := Option.some.inj hp
            rw [← this]
            exact hbooks i c hb
          · exact absurd hp (by simp)
        · rw [if_neg hip] at hp
          exact hbooks p b hp

theorem dense_run (ops : List Op) (db : DB) (hops : ops.all (fun op => !op.isRemove) = true)
    (h : Dense db) : Dense (run db ops) := by
  induction ops generalizing db with
  | nil => exact h
  | cons op ops ih =>
    rw [List.all_cons, Bool.and_eq_true] at hops
    rw [run_cons]
    apply ih _ hops.2
    cases op with
    | addBook name author now => exact dense_addBook db name author now h
    | getBooks => exact h
    | getBook id => exact h
    | updateBook id name author now => exact dense_updateBook db id name author now h
    | removeBook id => simp [Op.isRemove] at hops

/-- In a store of the shape `Dense`, `GetBook` succeeds on the ids 1 to the
counter, with a record of the id asked for. -/
theorem dense_getBook (db : DB) (h : Dense db) (id : Int) (h1 : 1 ≤ id)
    (h2 : id ≤ db.lastBookID) : ∃ b, db.GetBook id = .ok b ∧ b.ID = id := by
  obtain ⟨hlast, hidx, hbooks⟩ := h
  have hi := hidx id
  rw [if_pos ⟨h1, by omega⟩] at hi
  have hlt : (id - 1).toNat < db.books.length := by omega
  refine ⟨db.books[(id - 1).toNat], ?_, ?_⟩
  · unfold DB.GetBook
    rw [hi]
    simp only
    rw [List.getElem?_eq_getElem hlt]
  · have := hbooks (id - 1).toNat _ (List.getElem?_eq_getElem hlt)
    omega

/-- C15 (histories without removals keep the store consistent): at the end of
a run from a fresh store without `RemoveBook` calls, the counter is the length
of the sequence, the index has exactly the keys 1 to that length, mapping id
`k` to position `k - 1`, the record at position `p` has ID `p + 1`, and
`GetBook(id)` returns a record with that ID for every id from 1 to the
counter. -/
theorem no_remove_keeps_dense (ops : List Op) (id : Int)
    (hops : ops.all (fun op => !op.isRemove) = true)
    (h1 : 1 ≤ id) (h2 : id ≤ (run DB.fresh ops).lastBookID) :
    Dense (run DB.fresh ops) ∧
    ∃ b, (run DB.fresh ops).GetBook id = .ok b ∧ b.ID = id :=
  ⟨dense_run ops DB.fresh hops dense_fresh,
   dense_getBook _ (dense_run ops DB.fresh hops dense_fresh) id h1 h2⟩

/-- Witness for C15: two additions, an update and a `GetBook`, with id 2. -/
theorem no_remove_keeps_dense_witness :
    addAddUpdate.all (fun op => !op.isRemove) = true ∧
    (1 : Int) ≤ 2 ∧ 2 ≤ (run DB.fresh addAddUpdate).lastBookID ∧
    Dense (run DB.fresh addAddUpdate) ∧
    ∃ b, (run DB.fresh addAddUpdate).GetBook 2 = .ok b ∧ b.ID = 2 :=
  ⟨by decide, by decide, by decide,
   no_remove_keeps_dense addAddUpdate 2 (by decide) (by decide) (by decide)⟩

/-- A key of the index of a consistent store maps to a position of the
sequence. -/
theorem consistent_lt (db : DB) (id : Int) (p : Nat) (hc : Consistent db)
    (hp : db.index id = some p) : p < db.books.length := by
  obtain ⟨b, hb, _⟩ := hc.1 id p hp
  by_contra hge
  rw [List.getElem?_eq_none (by omega)] at hb
  exact absurd hb (by simp)

/-- In a consistent store the record with a given ID sits at one position. -/
theorem consistent_unique (db : DB) (id : Int) (p q : Nat) (c : Book) (hc : Consistent db)
    (hp : db.index id = some p) (hq : db.books[q]? = some c) (hid : c.ID = id) : q = p := by
  have := hc.2 q c hq
  rw [hid, hp] at this
  exact (Option.some.inj this).symm

/-- What `RemoveBook` does when the position stored for the id is in range. -/
theorem removeBook_of_index (db : DB) (id : Int) (p : Nat) (hp : db.index id = some p)
    (hlt : p < db.books.length) :
    db.RemoveBook id =
      (.ok (), { db with books := db.books.eraseIdx p, index := mapDelete db.index id }) := by
  unfold DB.RemoveBook
  rw [hp]
  simp only
  have : slicesDelete db.books p (p + 1) = some (db.books.eraseIdx p) := by
    unfold slicesDelete
    rw [if_pos ⟨by omega, by omega⟩, List.eraseIdx_eq_take_drop_succ]
  rw [this]

/-- Deleting the one position that holds the record with a given ID is the same
as dropping the records with that ID. -/
theorem filter_ne_eq_eraseIdx (l : List Book) (id : Int) (p : Nat) (b : Book)
    (hb : l[p]? = some b) (hid : b.ID = id)
    (huniq : ∀ q c, l[q]? = some c → c.ID = id → q = p) :
    l.filter (fun c => decide (c.ID ≠ id)) = l.eraseIdx p := by
  induction l generalizing p with
  | nil => simp at hb
  | cons x xs ih =>
    cases p with
    | zero =>
      simp only [List.getElem?_cons_zero, Option.some.injEq] at hb
      subst hb
      rw [List.filter_cons_of_neg (by simp [hid]), List.eraseIdx_cons_zero,
        List.filter_eq_self]
      intro c hcmem
      obtain ⟨q, hq⟩ := List.getElem?_of_mem hcmem
      have hne : c.ID ≠ id := by
        intro hcid
        have := huniq (q + 1) c (by simpa using hq) hcid
        omega
      simp [hne]
    | succ p =>
      have hx : x.ID ≠ id := by
        intro hxid
        have := huniq 0 x (by simp) hxid
        omega
      rw [List.filter_cons_of_pos (by simp [hx]), List.eraseIdx_cons_succ]
      congr 1
      apply ih p (by simpa using hb)
      intro q c hq hcid
      have := huniq (q + 1) c (by simpa using hq) hcid
      omega

/-- C16 (a removal from a consistent store removes the right record): in a
consistent store, `RemoveBook` of an id that is a key of the index returns
nil, deletes the id from the index, leaves the counter as it was, and the new
sequence is the old one without the record whose ID is that id, one record
shorter, the others kept in order. -/
theorem removeBook_consistent_store (db : DB) (id : Int) (p : Nat) (hc : Consistent db)
    (hp : db.index id = some p) :
    (db.RemoveBook id).1 = .ok () ∧
    (db.RemoveBook id).2.index = mapDelete db.index id ∧
    (db.RemoveBook id).2.index id = none ∧
    (db.RemoveBook id).2.lastBookID = db.lastBookID ∧
    (db.RemoveBook id).2.books = db.books.filter (fun b => decide (b.ID ≠ id)) ∧
    (db.RemoveBook id).2.books.length + 1 = db.books.length := by
  have hlt := consistent_lt db id p hc hp
  obtain ⟨b, hb, hid⟩ := hc.1 id p hp
  rw [removeBook_of_index db id p hp hlt]
  refine ⟨rfl, rfl, by simp [mapDelete], rfl, ?_, List.length_eraseIdx_add_one hlt⟩
  exact (filter_ne_eq_eraseIdx db.books id p b hb hid
    (fun q c hq hcid => consistent_unique db id p q c hc hp hq hcid)).symm

/-- Witness for C16: removing id 1 from the store with books 1 and 2. -/
theorem removeBook_consistent_store_witness :
    Consistent twoBooks ∧ twoBooks.index 1 = some 0 ∧
    (twoBooks.RemoveBook 1).1 = .ok () ∧
    (twoBooks.RemoveBook 1).2.index = mapDelete twoBooks.index 1 ∧
    (twoBooks.RemoveBook 1).2.index 1 = none ∧
    (twoBooks.RemoveBook 1).2.lastBookID = twoBooks.lastBookID ∧
    (twoBooks.RemoveBook 1).2.books = twoBooks.books.filter (fun b => decide (b.ID ≠ 1)) ∧
    (twoBooks.RemoveBook 1).2.books.length + 1 = twoBooks.books.length :=
  ⟨twoBooks_consistent, rfl, removeBook_consistent_store twoBooks 1 0 twoBooks_consistent rfl⟩

/-- After `RemoveBook` on a consistent store, the record at a position from the
removed one on has an index entry one above its position. -/
theorem removeBook_stale_entries (db : DB) (id : Int) (p : Nat) (hc : Consistent db)
    (hp : db.index id = some p) (q : Nat) (b : Book) (hq : p ≤ q)
    (hb : (db.RemoveBook id).2.books[q]? = some b) :
    (db.RemoveBook id).2.index b.ID = some (q + 1) := by
  rw [removeBook_of_index db id p hp (consistent_lt db id p hc hp)] at hb ⊢
  simp only at hb ⊢
  rw [List.getElem?_eraseIdx_of_ge _ _ _ hq] at hb
  have hne : b.ID ≠ id := by
    intro hid
    have := consistent_unique db id p (q + 1) b hc hp hb hid
    omega
  simp only [mapDelete]
  rw [if_neg hne]
  exact hc.2 (q + 1) b hb

/-- C17 (`RemoveBook` keeps index and sequence consistent exactly when it
removes the last record): in a consistent store, with `id` a key of the index
at position `p`, the store after `RemoveBook(id)` is consistent if and only if
`p` is the last position; and every record that ends at a position from `p` on,
i.e. that was positioned after the removed one, has an index entry one larger
than its position. -/
theorem removeBook_consistent_iff_last (db : DB) (id : Int) (p : Nat) (hc : Consistent db)
    (hp : db.index id = some p) :
    (Consistent (db.RemoveBook id).2 ↔ p + 1 = db.books.length) ∧
    (∀ q b, p ≤ q → (db.RemoveBook id).2.books[q]? = some b →
      (db.RemoveBook id).2.index b.ID = some (q + 1)) := by
  have hlt := consistent_lt db id p hc hp
  refine ⟨⟨?_, ?_⟩, fun q b hq hb => removeBook_stale_entries db id p hc hp q b hq hb⟩
  · intro hc2
    by_contra hne
    have hlt2 : p + 1 < db.books.length := by omega
    have hb : (db.RemoveBook id).2.books[p]? = some db.books[p + 1] := by
      rw [removeBook_of_index db id p hp hlt]
      simp only
      rw [List.getElem?_eraseIdx_of_ge _ _ _ (le_refl p), List.getElem?_eq_getElem hlt2]
    have h1 := removeBook_stale_entries db id p hc hp p _ (le_refl p) hb
    have h2 := hc2.2 p _ hb
    rw [h1] at h2
    have := Option.some.inj h2
    omega
  · intro hlast
    rw [removeBook_of_index db id p hp hlt]
    refine ⟨?_, ?_⟩
    · intro j q hj
      simp only [mapDelete] at hj
      by_cases hjid : j = id
      · rw [if_pos hjid] at hj
        exact absurd hj (by simp)
      · rw [if_neg hjid] at hj
        obtain ⟨b, hb, hbid⟩ := hc.1 j q hj
        have hqlt := consistent_lt db j q hc hj
        have hqp : q ≠ p := by
          intro hqp
          obtain ⟨b2, hb2, hid2⟩ := hc.1 id p hp
          rw [hqp, hb2] at hb
          have hbb := Option.some.inj hb
          rw [← hbb, hid2] at hbid
          exact hjid hbid.symm
        refine ⟨b, ?_, hbid⟩
        simp only
        rw [List.getElem?_eraseIdx_of_lt _ _ _ (by omega)]
        exact hb
    · intro q b hb
      simp only at hb
      have hqp : q < p := by
        by_contra hge
        rw [List.getElem?_eraseIdx_of_ge _ _ _ (by omega),
          List.getElem?_eq_none (by omega)] at hb
        exact absurd hb (by simp)
      rw [List.getElem?_eraseIdx_of_lt _ _ _ hqp] at hb
      have hne : b.ID ≠ id := by
        intro hid
        have := consistent_unique db id p q b hc hp hb hid
        omega
      simp only [mapDelete]
      rw [if_neg hne]
      exact hc.2 q b hb

/-- Witness for C17: in the store with books 1 and 2, id 1 is at position 0,
which is not the last one. -/
theorem removeBook_consistent_iff_last_witness :
    Consistent twoBooks ∧ twoBooks.index 1 = some 0 ∧
    (Consistent (twoBooks.RemoveBook 1).2 ↔ 0 + 1 = twoBooks.books.length) ∧
    (∀ q b, 0 ≤ q → (twoBooks.RemoveBook 1).2.books[q]? = some b →
      (twoBooks.RemoveBook 1).2.index b.ID = some (q + 1)) :=
  ⟨twoBooks_consistent, rfl,
   removeBook_consistent_iff_last twoBooks 1 0 twoBooks_consistent rfl⟩

/-- After any call of `NewDB` the `sync.Once` has run. -/
theorem nthNewDB_flag (n : Nat) : (nthNewDB n).2 = true := by
  cases n with
  | zero => rfl
  | succ n =>
    simp only [nthNewDB, NewDB]
    split <;> rfl

/-- C14 (mutations happen under the exclusive lock): holds for `AddBook` and
`newBookID` and fails for `RemoveBook` and `UpdateBook`. In the store with
books 1 and 2, `RemoveBook(1)` and `UpdateBook(1, ..)` both call `Lock` and
then `Unlock` at once, and write `db.books` (and `db.index`) after the
`Unlock`; `UpdateBook` writes the fields of the record before the `Lock`. -/
theorem remove_update_write_unlocked :
    writesUnderLock false newBookIDEvents = true ∧
    writesUnderLock false AddBookEvents = true ∧
    twoBooks.RemoveBookEvents 1 =
      [.RLock, .RUnlock, .Lock, .Unlock, .write .books, .write .index] ∧
    writesUnderLock false (twoBooks.RemoveBookEvents 1) = false ∧
    twoBooks.UpdateBookEvents 1 =
      [.RLock, .RUnlock, .write .bookName, .write .bookAuthor, .write .bookUpdatedAt,
       .Lock, .Unlock, .write .books] ∧
    writesUnderLock false (twoBooks.UpdateBookEvents 1) = false := by
  refine ⟨rfl, rfl, rfl, rfl, rfl, rfl⟩

/-- C18 (`NewDB` is one-shot): the first call of `NewDB` returns a store with
an empty sequence, an empty index and counter 0, and every later call returns
nil. -/
theorem newDB_one_shot (n : Nat) (id : Int) :
    nthNewDB 0 = (some DB.fresh, true) ∧
    DB.fresh.books = [] ∧
    DB.fresh.index id = none ∧
    DB.fresh.lastBookID = 0 ∧
    (nthNewDB (n + 1)).1 = none := by
  refine ⟨rfl, rfl, rfl, rfl, ?_⟩
  simp only [nthNewDB, nthNewDB_flag, NewDB]
  rfl

/-- C19 (malformed ids are rejected before the store is reached): for a GET,
PUT or DELETE request whose path remainder is not empty and is not accepted by
`strconv.Atoi`, and for a PUT or DELETE request whose path remainder is empty,
`handleBooks` answers with status 400, invokes no store operation and leaves
the store as it was. -/
theorem malformed_id_rejected (atoi : String → Option Int)
    (decodeBook : String → Option (String × String)) (now : Int) (database : DB) (r : Request)
    (hm : r.Method = "GET" ∨ r.Method = "PUT" ∨ r.Method = "DELETE")
    (hbad : (pathRemainder r.Path ≠ "" ∧ atoi (pathRemainder r.Path) = none) ∨
      (r.Method ≠ "GET" ∧ pathRemainder r.Path = "")) :
    (handleBooks atoi decodeBook now database r).status = some 400 ∧
    (handleBooks atoi decodeBook now database r).calls = [] ∧
    (handleBooks atoi decodeBook now database r).database = database := by
  unfold handleBooks
  rcases hm with hm | hm | hm
  · rcases hbad with ⟨hne, hat⟩ | ⟨hng, _⟩
    · simp [hm, hne, hat]
    · exact absurd hm hng
  · rcases hbad with ⟨hne, hat⟩ | ⟨_, he⟩
    · simp [hm, hne, hat]
    · simp [hm, he]
  · rcases hbad with ⟨hne, hat⟩ | ⟨_, he⟩
    · simp [hm, hne, hat]
    · simp [hm, he]

/-- Witness for C19: `DELETE /books/abc/` and `PUT /books/` on the store with
books 1 and 2. -/
theorem malformed_id_rejected_witness :
    (pathRemainder "/books/abc/" ≠ "" ∧ sampleAtoi (pathRemainder "/books/abc/") = none) ∧
    ((handleBooks sampleAtoi (fun _ => none) 40 twoBooks ⟨"DELETE", "/books/abc/", ""⟩).status =
        some 400 ∧
      (handleBooks sampleAtoi (fun _ => none) 40 twoBooks ⟨"DELETE", "/books/abc/", ""⟩).calls =
        [] ∧
      (handleBooks sampleAtoi (fun _ => none) 40 twoBooks
        ⟨"DELETE", "/books/abc/", ""⟩).database = twoBooks) ∧
    pathRemainder "/books/" = "" ∧
    ((handleBooks sampleAtoi (fun _ => none) 40 twoBooks ⟨"PUT", "/books/", ""⟩).status =
        some 400 ∧
      (handleBooks sampleAtoi (fun _ => none) 40 twoBooks ⟨"PUT", "/books/", ""⟩).calls = [] ∧
      (handleBooks sampleAtoi (fun _ => none) 40 twoBooks ⟨"PUT", "/books/", ""⟩).database =
        twoBooks) :=
  ⟨by decide,
   malformed_id_rejected sampleAtoi (fun _ => none) 40 twoBooks ⟨"DELETE", "/books/abc/", ""⟩
     (Or.inr (Or.inr rfl)) (Or.inl (by decide)),
   by decide,
   malformed_id_rejected sampleAtoi (fun _ => none) 40 twoBooks ⟨"PUT", "/books/", ""⟩
     (Or.inr (Or.inl rfl)) (Or.inr ⟨by decide, by decide⟩)⟩

end BookStore
